import Mathlib

/-!
Shallow embedding of the `pw_entropy` crate (`src/lib.rs`).

The working text is modelled as `List Char` (Rust `Vec<char>`); the in-place
mutations of the source become functions returning the new list.  Machine
integers (`usize`, `u16`) are modelled as `Nat`: `base` is at most 94 and
`length` at most the input length, so no wrap-around can occur and no
`% 2 ^ w` reduction is needed.  The `f64` values produced by the entropy
computation are modelled by `F64`: an exact real payload together with the
IEEE-754 special values `nan`, `posInf`, `negInf`; special-value propagation
follows IEEE-754 addition and logarithm rules exactly (rounding of finite
sums is idealised to exact real arithmetic).
-/

namespace PwEntropy

/-- The list of the replace characters (`REPLACE_CHARS` in the source). -/
def REPLACE_CHARS : String := "!@$&*"

/-- The list of the separator characters (`SEPARATOR_CHARS` in the source). -/
def SEPARATOR_CHARS : String := "_-., "

/-- The list of the special characters that are neither a replace nor a
separator character (`OTHER_SPECIAL_CHARS` in the source, written with
escapes: `\x22` is the double quote, `\x27` the apostrophe, `\x7b` and
`\x7d` the braces). -/
def OTHER_SPECIAL_CHARS : String := "\x22#%\x27()+/:;<=>?[\\]^\x7b|\x7d~"

/-- The list of lower characters (`LOWER_CHARS` in the source). -/
def LOWER_CHARS : String := "abcdefghijklmnopqrstuvwxyz"

/-- The list of upper characters (`UPPER_CHARS` in the source). -/
def UPPER_CHARS : String := "ABCDEFGHIJKLMNOPQRSTUVWXYZ"

/-- The list of digits (`DIGIT_CHARS` in the source). -/
def DIGIT_CHARS : String := "0123456789"

/-- The output record of the pipeline (`struct PasswordInfo`).  `length` and
`base` are `Nat` (source: `usize`, `u16`; `base ≤ 94 < 2 ^ 16`, so no
overflow reduction is needed). -/
structure PasswordInfo where
  length : Nat
  base : Nat
  has_replace : Bool
  has_seperator : Bool
  has_other_special : Bool
  has_lower : Bool
  has_upper : Bool
  has_digit : Bool
deriving DecidableEq, Repr

/-- Models `Vec::dedup` (`remove_repeating_characters` in the source):
remove consecutive repeated characters, keeping the first of each run. -/
def remove_repeating_characters : List Char → List Char
  | [] => []
  | [a] => [a]
  | a :: b :: rest =>
      if a = b then remove_repeating_characters (b :: rest)
      else a :: remove_repeating_characters (b :: rest)

/-- The body of the source's `remove_palindrome`, with the one library call
it makes — Rust's Unicode-aware `char::to_lowercase`, which yields a
sequence of characters — abstracted as the parameter `to_lowercase`: if the
whole text reads the same forwards and backwards when compared through
`to_lowercase`, truncate it to its first `len / 2 + len % 2` characters.
The full Unicode case table is not reproduced in this model, so every
theorem about this comparison is proved for an arbitrary `to_lowercase`
and therefore holds in particular for Rust's. -/
def remove_palindrome_with (to_lowercase : Char → List Char) (password : List Char) :
    List Char :=
  let half := password.length / 2 + password.length % 2
  let forwards := (password.take half).map to_lowercase
  let backwards := (password.reverse.take half).map to_lowercase
  let is_palindrome := (forwards.zip backwards).all fun fb => fb.1 == fb.2
  if is_palindrome then password.take half else password

/-- The ASCII fragment of Rust `char::to_lowercase` (on ASCII the mapping is
the single ASCII lowercase character, which `Char.toLower` computes; outside
ASCII this fragment is the identity, unlike Rust's full Unicode mapping).
Every concrete input evaluated in this file is ASCII, and every theorem
about the case-insensitive comparison is stated for an arbitrary mapping
via `remove_palindrome_with`, so no result depends on the unmodelled part
of the Unicode table. -/
def charToLowercase (c : Char) : List Char := [c.toLower]

/-- `remove_palindrome` from the source: `remove_palindrome_with` at the
model of `char::to_lowercase`. -/
def remove_palindrome : List Char → List Char :=
  remove_palindrome_with charToLowercase

/-- The fixed list of common password sequences (`COMMON_SEQUENCES` in the
source, in source order, duplicates kept). -/
def COMMON_SEQUENCES : List String :=
  ["asdf",
   "jkl;",
   ";lkj",
   "fdsa",
   "asdfghjkl",
   "asdf ;lkj",
   "0123456789",
   "qwertyuiop",
   "qwerty",
   "zxcvbnm",
   "abcdefghijklmnopqrstuvwxyz",
   "password1",
   "password!",
   "password",
   "Password",
   "assword",
   "picture1",
   "Picture1",
   "picture",
   "Picture",
   "asdf",
   "rty567",
   "senha",
   "abc123",
   "Million2",
   "000000",
   "1234",
   "iloveyou",
   "aaron431",
   "qqww1122",
   "123123"]

/-- Models `password.windows(len).position(|w| w.eq(&sequence))`: the index
of the leftmost window of `password` equal to `sequence`.  `windows` yields
`password.length + 1 - sequence.length` windows (none when the pattern is
longer than the text); `position` returns the first index whose window
matches.  (For an empty pattern Rust `windows(0)` panics; every pattern of
`COMMON_SEQUENCES` is non-empty, so that case is unreachable.) -/
def findOcc (sequence password : List Char) : Option Nat :=
  (List.range (password.length + 1 - sequence.length)).find?
    fun i => (password.drop i).take sequence.length == sequence

/-- The `while let Some(position) = …` loop of `remove_common_sequences`,
with explicit fuel: each iteration deletes the leftmost occurrence
(`drain(position..position + len)`).  Each iteration removes at least one
character (patterns are non-empty), so fuel `password.length` (supplied by
`removeAll`) is enough to reach the fixed point. -/
def removeAllAux (sequence : List Char) : Nat → List Char → List Char
  | 0, password => password
  | fuel + 1, password =>
      match findOcc sequence password with
      | none => password
      | some position =>
          removeAllAux sequence fuel
            (password.take position ++ password.drop (position + sequence.length))

/-- Removal of every occurrence of one pattern: the source's inner
`while` loop run to completion. -/
def removeAll (sequence password : List Char) : List Char :=
  removeAllAux sequence password.length password

/-- `remove_common_sequences` from the source: for each pattern of
`COMMON_SEQUENCES` in list order, repeatedly delete its leftmost occurrence
until none remains. -/
def remove_common_sequences (password : List Char) : List Char :=
  COMMON_SEQUENCES.foldl (fun acc s => removeAll s.data acc) password

/-- The classification part of `PasswordInfo::for_password` (source lines
113–155): the six `has_*` flags, the final length, and the accumulated
`base`.  Rust `str::len` is the UTF-8 byte length, modelled by
`String.utf8ByteSize` (the six class strings are ASCII, so this equals the
character count). -/
def classify (password : List Char) : PasswordInfo :=
  let has_replace := REPLACE_CHARS.data.any fun c => password.contains c
  let has_seperator := SEPARATOR_CHARS.data.any fun c => password.contains c
  let has_other_special := OTHER_SPECIAL_CHARS.data.any fun c => password.contains c
  let has_lower := LOWER_CHARS.data.any fun c => password.contains c
  let has_upper := UPPER_CHARS.data.any fun c => password.contains c
  let has_digits := DIGIT_CHARS.data.any fun c => password.contains c
  let length := password.length
  let base := 0
  let base := if has_replace then base + REPLACE_CHARS.utf8ByteSize else base
  let base := if has_seperator then base + SEPARATOR_CHARS.utf8ByteSize else base
  let base := if has_other_special then base + OTHER_SPECIAL_CHARS.utf8ByteSize else base
  let base := if has_lower then base + LOWER_CHARS.utf8ByteSize else base
  let base := if has_upper then base + UPPER_CHARS.utf8ByteSize else base
  let base := if has_digits then base + DIGIT_CHARS.utf8ByteSize else base
  { length := length
    base := base
    has_replace := has_replace
    has_seperator := has_seperator
    has_other_special := has_other_special
    has_lower := has_lower
    has_upper := has_upper
    has_digit := has_digits }

/-- The reduced working text of a password: the three reductions applied in
the source's order (`remove_palindrome`, then `remove_common_sequences`,
then `remove_repeating_characters` — source lines 108–111). -/
def reducedText (password : String) : List Char :=
  remove_repeating_characters (remove_common_sequences (remove_palindrome password.data))

/-- `PasswordInfo::for_password`: reduce the working copy of the password,
then classify it. -/
def for_password (password : String) : PasswordInfo :=
  classify (reducedText password)

/-- Model of an IEEE-754 `f64` at the precision this pipeline needs: a
finite value carries its exact real payload (rounding of finite arithmetic
is idealised to exact real arithmetic); the special values `nan`, `posInf`
and `negInf` and their propagation are modelled exactly. -/
inductive F64 where
  | nan : F64
  | posInf : F64
  | negInf : F64
  | fin : ℝ → F64

/-- IEEE-754 `f64` addition on the special values (exact real addition on
finite payloads): `nan` absorbs, opposite infinities give `nan`, an infinity
absorbs anything finite. -/
noncomputable def F64.add : F64 → F64 → F64
  | .nan, _ => .nan
  | _, .nan => .nan
  | .posInf, .negInf => .nan
  | .negInf, .posInf => .nan
  | .posInf, _ => .posInf
  | _, .posInf => .posInf
  | .negInf, _ => .negInf
  | _, .negInf => .negInf
  | .fin x, .fin y => .fin (x + y)

/-- Models Rust `f64::log(self, base)`, i.e. `self.ln() / base.ln()`, at a
positive logarithm base (the pipeline only calls it with base 2):
`ln` of a negative number is `nan`, `ln 0 = −∞` and `−∞ / ln 2 = −∞`, and a
positive argument gives the finite value `log x / log b = logb b x`. -/
noncomputable def f64_log (x logBase : ℝ) : F64 :=
  if x < 0 then .nan
  else if x = 0 then .negInf
  else .fin (Real.log x / Real.log logBase)

/-- `log_power` from the source: `repeat(exp_base.log(log_base)).take(power).sum()`.
Rust `Sum<f64>` folds `+` over the iterator starting from `0.0`. -/
noncomputable def log_power (exp_base : ℝ) (power : Nat) (log_base : ℝ) : F64 :=
  (List.replicate power (f64_log exp_base log_base)).foldl F64.add (.fin 0)

/-- `PasswordInfo::get_entropy`: `log_power(f64::from(self.base), self.length, 2.0)`. -/
noncomputable def get_entropy (info : PasswordInfo) : F64 :=
  log_power (info.base : ℝ) info.length 2

/-- Spec-side predicate (§4.2): the text reads identically forwards and
backwards under the case-insensitive comparison, i.e. the sequence mapped
through the case-folding function `lc` equals its own reverse.  It is
parameterised by `lc` for the same reason as `remove_palindrome_with`:
instantiating `lc` at Rust's `char::to_lowercase` gives exactly the
program's comparison. -/
def ciPalindromeWith (lc : Char → List Char) (s : List Char) : Prop :=
  s.map lc = (s.map lc).reverse

instance (lc : Char → List Char) : DecidablePred (ciPalindromeWith lc) := fun s => by
  unfold ciPalindromeWith
  exact inferInstance

/-- Spec-side definition (§3 table): ASCII punctuation, as Rust defines
`char::is_ascii_punctuation` (U+0021–U+002F, U+003A–U+0040, U+005B–U+0060,
U+007B–U+007E). -/
def isAsciiPunctuationSpec (c : Char) : Bool :=
  (33 ≤ c.toNat && c.toNat ≤ 47) || (58 ≤ c.toNat && c.toNat ≤ 64) ||
    (91 ≤ c.toNat && c.toNat ≤ 96) || (123 ≤ c.toNat && c.toNat ≤ 126)

/-- Spec-side list of all ASCII punctuation characters, in code-point order. -/
def asciiPunctuationSpec : List Char :=
  ((List.range 128).map Char.ofNat).filter isAsciiPunctuationSpec

/-! ## Properties of the run collapser (`Vec::dedup`) -/

theorem rrc_head? : ∀ (b : Char) (rest : List Char),
    (remove_repeating_characters (b :: rest)).head? = some b := by
  intro b rest
  induction rest generalizing b with
  | nil => rfl
  | cons c rest ih =>
      by_cases h : b = c
      · subst h
        simp [remove_repeating_characters, ih]
      · simp [remove_repeating_characters, h]

theorem rrc_chain' : ∀ s : List Char,
    (remove_repeating_characters s).Chain' (fun a b => a ≠ b) := by
  intro s
  induction s with
  | nil => simp [remove_repeating_characters]
  | cons a t ih =>
      cases t with
      | nil => simp [remove_repeating_characters]
      | cons b rest =>
          by_cases h : a = b
          · simpa [remove_repeating_characters, h] using ih
          · simp only [remove_repeating_characters, if_neg h]
            refine List.chain'_cons'.mpr ⟨?_, ih⟩
            intro y hy
            rw [rrc_head? b rest] at hy
            simp only [Option.mem_def, Option.some.injEq] at hy
            subst hy
            exact h

theorem rrc_of_chain' : ∀ s : List Char,
    s.Chain' (fun a b => a ≠ b) → remove_repeating_characters s = s := by
  intro s
  induction s with
  | nil => intro _; rfl
  | cons a t ih =>
      cases t with
      | nil => intro _; rfl
      | cons b rest =>
          intro h
          rw [List.chain'_cons] at h
          simp [remove_repeating_characters, h.1, ih h.2]

/-- C8: applying the Run Collapser (`remove_repeating_characters`) twice
yields the same result as applying it once; its output has no two adjacent
equal characters (every maximal run is collapsed to a single occurrence,
under strict adjacency), and `"abba"` collapses to `"aba"`, not `"ab"`. -/
theorem claim_C8_run_collapse_idempotent : ∀ s : List Char,
    remove_repeating_characters (remove_repeating_characters s) =
      remove_repeating_characters s ∧
    (remove_repeating_characters s).Chain' (fun a b => a ≠ b) ∧
    remove_repeating_characters "abba".data = "aba".data ∧
    remove_repeating_characters "aabbccddeeff".data = "abcdef".data := by
  intro s
  exact ⟨rrc_of_chain' _ (rrc_chain' s), rrc_chain' s, by decide, by decide⟩

/-! ## The class tables -/

/-- C6 counterexample: the backtick (U+0060) is ASCII punctuation, belongs
to neither the replace nor the separator set, and yet is missing from
`OTHER_SPECIAL_CHARS`, so that constant does not contain every remaining
ASCII punctuation character. -/
theorem claim_C6_counterexample :
    isAsciiPunctuationSpec (Char.ofNat 96) = true ∧
    Char.ofNat 96 ∉ REPLACE_CHARS.data ∧
    Char.ofNat 96 ∉ SEPARATOR_CHARS.data ∧
    Char.ofNat 96 ∉ OTHER_SPECIAL_CHARS.data := by
  decide

/-- C6 (amended): the six class-character constants are pairwise disjoint
and match the §3 table, except that `OTHER_SPECIAL_CHARS` contains every
remaining ASCII punctuation character other than the backtick (U+0060),
which is in no class table. -/
theorem claim_C6_class_tables :
    REPLACE_CHARS.data = ['!', '@', '$', '&', '*'] ∧
    SEPARATOR_CHARS.data = ['_', '-', '.', ',', ' '] ∧
    LOWER_CHARS.data = (List.range 26).map (fun i => Char.ofNat (97 + i)) ∧
    UPPER_CHARS.data = (List.range 26).map (fun i => Char.ofNat (65 + i)) ∧
    DIGIT_CHARS.data = (List.range 10).map (fun i => Char.ofNat (48 + i)) ∧
    OTHER_SPECIAL_CHARS.data = asciiPunctuationSpec.filter
      (fun c => !(REPLACE_CHARS.data.contains c) && !(SEPARATOR_CHARS.data.contains c) &&
        c != Char.ofNat 96) ∧
    List.Pairwise (fun l₁ l₂ => ∀ x ∈ l₁, x ∉ l₂)
      [REPLACE_CHARS.data, SEPARATOR_CHARS.data, OTHER_SPECIAL_CHARS.data,
        LOWER_CHARS.data, UPPER_CHARS.data, DIGIT_CHARS.data] := by
  refine ⟨by decide, by decide, by decide, by decide, by decide, by decide, by decide⟩

/-! ## Properties of the palindrome reducer -/

theorem zip_all_beq_iff {α : Type} [BEq α] [LawfulBEq α] :
    ∀ (xs ys : List α), xs.length = ys.length →
      (((xs.zip ys).all fun ab => ab.1 == ab.2) = true ↔ xs = ys) := by
  intro xs
  induction xs with
  | nil =>
      intro ys h
      cases ys with
      | nil => simp
      | cons b ys => simp at h
  | cons a xs ih =>
      intro ys h
      cases ys with
      | nil => simp at h
      | cons b ys =>
          have h' : xs.length = ys.length := by simpa using h
          simp [List.cons.injEq, ih ys h', and_comm]

theorem take_eq_reverse_take_iff {α : Type} (A : List α) (h : Nat)
    (_hle : h ≤ A.length) (hbig : A.length ≤ 2 * h) :
    (A.take h = A.reverse.take h ↔ A = A.reverse) := by
  constructor
  · intro H
    have key : ∀ j, j < h → A[j]? = A.reverse[j]? := by
      intro j hj
      have e := congrArg (fun l => l[j]?) H
      simpa [List.getElem?_take_of_lt hj] using e
    apply List.ext_getElem?
    intro i
    by_cases hi : i < A.length
    · by_cases hih : i < h
      · exact key i hih
      · have hj : A.length - 1 - i < h := by omega
        have e := key (A.length - 1 - i) hj
        rw [List.getElem?_reverse (by omega)] at e
        rw [List.getElem?_reverse hi]
        have hidx : A.length - 1 - (A.length - 1 - i) = i := by omega
        rw [hidx] at e
        exact e.symm
    · rw [List.getElem?_eq_none (by omega), List.getElem?_eq_none (by simp; omega)]
  · intro H
    rw [← H]

theorem palindrome_cond_iff (lc : Char → List Char) (s : List Char) :
    ((((s.take (s.length / 2 + s.length % 2)).map lc).zip
        ((s.reverse.take (s.length / 2 + s.length % 2)).map lc)).all
      fun fb => fb.1 == fb.2) = true ↔ ciPalindromeWith lc s := by
  have hzip := zip_all_beq_iff
    ((s.take (s.length / 2 + s.length % 2)).map lc)
    ((s.reverse.take (s.length / 2 + s.length % 2)).map lc)
    (by simp [List.length_take])
  refine hzip.trans ?_
  rw [List.map_take, List.map_take, List.map_reverse]
  exact take_eq_reverse_take_iff (s.map lc)
    (s.length / 2 + s.length % 2)
    (by simp only [List.length_map]; omega)
    (by simp only [List.length_map]; omega)

theorem remove_palindrome_with_eq (lc : Char → List Char) (s : List Char) :
    remove_palindrome_with lc s =
      if ciPalindromeWith lc s then s.take (s.length / 2 + s.length % 2) else s := by
  simp only [remove_palindrome_with]
  by_cases hp : ciPalindromeWith lc s
  · rw [if_pos ((palindrome_cond_iff lc s).mpr hp), if_pos hp]
  · rw [if_neg (fun hc => hp ((palindrome_cond_iff lc s).mp hc)), if_neg hp]

theorem remove_palindrome_eq (s : List Char) :
    remove_palindrome s =
      if ciPalindromeWith charToLowercase s
      then s.take (s.length / 2 + s.length % 2) else s :=
  remove_palindrome_with_eq charToLowercase s

/-- C5: for every case-folding function — in particular Rust's Unicode
`char::to_lowercase`, whose table this model does not reproduce — any
sequence that reads identically forwards and backwards under the resulting
case-insensitive comparison (including the empty one) is truncated by the
palindrome reducer to its first `⌈n/2⌉` characters, so its reduced length
is `⌈n/2⌉`; any sequence that is not a full case-insensitive palindrome is
left unchanged.  The source's `remove_palindrome` is this reducer at the
model of `char::to_lowercase`. -/
theorem claim_C5_palindrome_reduction : ∀ (lc : Char → List Char) (s : List Char),
    (ciPalindromeWith lc s →
      remove_palindrome_with lc s = s.take ((s.length + 1) / 2) ∧
      (remove_palindrome_with lc s).length = (s.length + 1) / 2) ∧
    (¬ ciPalindromeWith lc s → remove_palindrome_with lc s = s) ∧
    remove_palindrome = remove_palindrome_with charToLowercase := by
  intro lc s
  refine ⟨?_, ?_, rfl⟩
  · intro hp
    have h2 : s.length / 2 + s.length % 2 = (s.length + 1) / 2 := by omega
    rw [remove_palindrome_with_eq, if_pos hp, h2]
    exact ⟨rfl, by rw [List.length_take]; omega⟩
  · intro hp
    rw [remove_palindrome_with_eq, if_neg hp]

/-! ## The order of the three reductions -/

theorem classify_length (s : List Char) : (classify s).length = s.length := rfl

set_option maxHeartbeats 4000000 in
/-- C1 counterexample: on the input `"passworddrowssap"` the stored reduced
length is 0 (the whole input is a palindrome, is halved to `"password"`,
and that is then stripped as a known sequence), while the spec's order —
sequence removal first, then palindrome reduction, then run collapse —
leaves 7 characters (`"drowsap"`), so the stored values do not equal those
of the spec's composition. -/
theorem claim_C1_counterexample :
    (for_password "passworddrowssap").length = 0 ∧
    (remove_repeating_characters (remove_palindrome
      (remove_common_sequences "passworddrowssap".data))).length = 7 ∧
    (for_password "passworddrowssap").length ≠
      (remove_repeating_characters (remove_palindrome
        (remove_common_sequences "passworddrowssap".data))).length := by
  refine ⟨by decide, by decide, by decide⟩

/-- C1 (amended): `PasswordInfo::for_password` applies the three reductions
in the fixed order palindrome reduction first, then known-sequence removal,
then adjacent-duplicate collapse; the stored record and length equal those
obtained from `run_collapse(sequence_remove(palindrome_reduce(chars)))`. -/
theorem claim_C1_pipeline_order : ∀ p : String,
    for_password p =
      classify (remove_repeating_characters (remove_common_sequences
        (remove_palindrome p.data))) ∧
    (for_password p).length =
      (remove_repeating_characters (remove_common_sequences
        (remove_palindrome p.data))).length := by
  intro p
  have h1 : for_password p =
      classify (remove_repeating_characters (remove_common_sequences
        (remove_palindrome p.data))) := rfl
  exact ⟨h1, by rw [h1, classify_length]⟩

/-! ## Properties of the sequence remover -/

theorem find?_range_some {p : Nat → Bool} :
    ∀ {m i : Nat}, (List.range m).find? p = some i →
      p i = true ∧ i < m ∧ ∀ j, j < i → p j = false := by
  intro m
  induction m with
  | zero => intro i h; simp [List.range_zero] at h
  | succ m ih =>
      intro i h
      rw [List.range_succ, List.find?_append] at h
      cases hm : (List.range m).find? p with
      | some k =>
          rw [hm] at h
          simp only [Option.or, Option.some.injEq] at h
          subst h
          obtain ⟨h1, h2, h3⟩ := ih hm
          exact ⟨h1, by omega, h3⟩
      | none =>
          rw [hm] at h
          simp only [Option.or] at h
          have hall : ∀ j, j < m → p j = false := by
            intro j hj
            have := List.find?_eq_none.mp hm j (List.mem_range.mpr hj)
            simpa using this
          cases hpm : p m with
          | false => simp [List.find?, hpm] at h
          | true =>
              simp only [List.find?, hpm, Option.some.injEq] at h
              subst h
              exact ⟨hpm, by omega, hall⟩

theorem findOcc_some {pat s : List Char} {i : Nat} (h : findOcc pat s = some i) :
    (s.drop i).take pat.length = pat ∧ i + pat.length ≤ s.length ∧
      ∀ j, j < i → (s.drop j).take pat.length ≠ pat := by
  unfold findOcc at h
  obtain ⟨hp, hm, hmin⟩ := find?_range_some h
  refine ⟨by simpa using hp, by omega, ?_⟩
  intro j hj heq
  have hf := hmin j hj
  simp [heq] at hf

theorem findOcc_nil {pat : List Char} (h : pat ≠ []) : findOcc pat [] = none := by
  have hp : 0 < pat.length := List.length_pos.mpr h
  unfold findOcc
  rw [show (List.nil (α := Char)).length + 1 - pat.length = 0 from by simp; omega]
  rfl

theorem removeAllAux_nil {pat : List Char} (h : pat ≠ []) :
    ∀ fuel : Nat, removeAllAux pat fuel [] = [] := by
  intro fuel
  cases fuel with
  | zero => rfl
  | succ n => simp [removeAllAux, findOcc_nil h]

theorem length_removeSpan {s pat : List Char} {i : Nat} (h : i + pat.length ≤ s.length) :
    (s.take i ++ s.drop (i + pat.length)).length = s.length - pat.length := by
  simp only [List.length_append, List.length_take, List.length_drop]
  omega

theorem length_removeAllAux_le (pat : List Char) :
    ∀ (fuel : Nat) (s : List Char), (removeAllAux pat fuel s).length ≤ s.length := by
  intro fuel
  induction fuel with
  | zero => intro s; exact Nat.le_refl _
  | succ n ih =>
      intro s
      cases h : findOcc pat s with
      | none => simp [removeAllAux, h]
      | some i =>
          have hb := (findOcc_some h).2.1
          calc (removeAllAux pat (n + 1) s).length
              = (removeAllAux pat n (s.take i ++ s.drop (i + pat.length))).length := by
                simp [removeAllAux, h]
            _ ≤ (s.take i ++ s.drop (i + pat.length)).length := ih _
            _ ≤ s.length := by rw [length_removeSpan hb]; omega

theorem length_removeAll_le (pat s : List Char) : (removeAll pat s).length ≤ s.length :=
  length_removeAllAux_le pat s.length s

theorem findOcc_removeAllAux {pat : List Char} (hne : pat ≠ []) :
    ∀ (fuel : Nat) (s : List Char), s.length ≤ fuel →
      findOcc pat (removeAllAux pat fuel s) = none := by
  intro fuel
  induction fuel with
  | zero =>
      intro s hs
      have hnil : s = [] := List.eq_nil_of_length_eq_zero (by omega)
      subst hnil
      exact findOcc_nil hne
  | succ n ih =>
      intro s hs
      cases h : findOcc pat s with
      | none => simp [removeAllAux, h]
      | some i =>
          have hb := (findOcc_some h).2.1
          have hp : 0 < pat.length := List.length_pos.mpr hne
          have hlen : (s.take i ++ s.drop (i + pat.length)).length ≤ n := by
            rw [length_removeSpan hb]
            omega
          simpa [removeAllAux, h] using ih _ hlen

theorem removeAllAux_fuel_inv {pat : List Char} (hne : pat ≠ []) :
    ∀ (fuel1 fuel2 : Nat) (s : List Char), s.length ≤ fuel1 → s.length ≤ fuel2 →
      removeAllAux pat fuel1 s = removeAllAux pat fuel2 s := by
  intro fuel1
  induction fuel1 with
  | zero =>
      intro fuel2 s h1 h2
      have hnil : s = [] := List.eq_nil_of_length_eq_zero (by omega)
      subst hnil
      rw [removeAllAux_nil hne, removeAllAux_nil hne]
  | succ n ih =>
      intro fuel2 s h1 h2
      cases fuel2 with
      | zero =>
          have hnil : s = [] := List.eq_nil_of_length_eq_zero (by omega)
          subst hnil
          rw [removeAllAux_nil hne, removeAllAux_nil hne]
      | succ m =>
          cases h : findOcc pat s with
          | none => simp [removeAllAux, h]
          | some i =>
              have hb := (findOcc_some h).2.1
              have hp : 0 < pat.length := List.length_pos.mpr hne
              have hlen := length_removeSpan hb
              simp only [removeAllAux, h]
              exact ih m _ (by omega) (by omega)

theorem removeAll_step {pat s : List Char} {i : Nat} (hne : pat ≠ [])
    (h : findOcc pat s = some i) :
    removeAll pat s = removeAll pat (s.take i ++ s.drop (i + pat.length)) := by
  have hb := (findOcc_some h).2.1
  have hp : 0 < pat.length := List.length_pos.mpr hne
  have hs : 0 < s.length := by omega
  unfold removeAll
  rw [show s.length = (s.length - 1) + 1 from by omega]
  simp only [removeAllAux, h]
  exact removeAllAux_fuel_inv hne _ _ _
    (by rw [length_removeSpan hb]; omega)
    (by rw [length_removeSpan hb])

theorem removeAll_of_none {pat s : List Char} (h : findOcc pat s = none) :
    removeAll pat s = s := by
  unfold removeAll
  cases hl : s.length with
  | zero => rfl
  | succ n => simp [removeAllAux, h]

theorem foldl_removeAll_of_none :
    ∀ (pats : List String) (s : List Char),
      (∀ pat ∈ pats, findOcc pat.data s = none) →
      pats.foldl (fun acc q => removeAll q.data acc) s = s := by
  intro pats
  induction pats with
  | nil => intro s _; rfl
  | cons q pats ih =>
      intro s h
      have h0 : removeAll q.data s = s := removeAll_of_none (h q (by simp))
      simp only [List.foldl_cons, h0]
      exact ih s fun pat hp => h pat (by simp [hp])

theorem foldl_removeAll_length_le :
    ∀ (pats : List String) (s : List Char),
      (pats.foldl (fun acc q => removeAll q.data acc) s).length ≤ s.length := by
  intro pats
  induction pats with
  | nil => intro s; exact Nat.le_refl _
  | cons q pats ih =>
      intro s
      simp only [List.foldl_cons]
      calc (pats.foldl (fun acc q => removeAll q.data acc) (removeAll q.data s)).length
          ≤ (removeAll q.data s).length := ih _
        _ ≤ s.length := length_removeAll_le _ _

/-- C4: `remove_common_sequences` processes the patterns in list order
(definitionally, a left fold over `COMMON_SEQUENCES`); for each pattern,
`findOcc` locates the leftmost exact case-sensitive occurrence (no earlier
index matches), one step of the loop deletes exactly that span, and the loop
runs until no occurrence of the pattern remains (also catching occurrences
created by earlier deletions); an empty or non-matching text is unchanged;
and `"asdf|password|asdf|qwerty"` reduces to `"|||"`. -/
theorem claim_C4_sequence_removal : ∀ s : List Char,
    (∀ (pat : List Char) (i : Nat), findOcc pat s = some i →
      (s.drop i).take pat.length = pat ∧ i + pat.length ≤ s.length ∧
        ∀ j, j < i → (s.drop j).take pat.length ≠ pat) ∧
    (∀ (pat : List Char) (i : Nat), pat ≠ [] → findOcc pat s = some i →
      removeAll pat s = removeAll pat (s.take i ++ s.drop (i + pat.length))) ∧
    (∀ pat : List Char, pat ≠ [] → findOcc pat (removeAll pat s) = none) ∧
    ((∀ pat ∈ COMMON_SEQUENCES, findOcc pat.data s = none) →
      remove_common_sequences s = s) ∧
    remove_common_sequences [] = [] ∧
    remove_common_sequences "asdf|password|asdf|qwerty".data = "|||".data := by
  intro s
  refine ⟨fun pat i h => findOcc_some h,
    fun pat i hne h => removeAll_step hne h,
    fun pat hne => findOcc_removeAllAux hne s.length s (Nat.le_refl _),
    fun h => foldl_removeAll_of_none COMMON_SEQUENCES s h,
    by decide, by decide⟩

/-! ## Length bounds (C10) -/

theorem length_rrc_le : ∀ s : List Char,
    (remove_repeating_characters s).length ≤ s.length := by
  intro s
  induction s with
  | nil => exact Nat.le_refl _
  | cons a t ih =>
      cases t with
      | nil => exact Nat.le_refl _
      | cons b rest =>
          by_cases h : a = b
          · simp only [remove_repeating_characters, if_pos h]
            exact Nat.le_succ_of_le ih
          · simp only [remove_repeating_characters, if_neg h, List.length_cons]
            simp only [List.length_cons] at ih
            omega

theorem length_remove_palindrome_le (s : List Char) :
    (remove_palindrome s).length ≤ s.length := by
  rw [remove_palindrome_eq]
  by_cases hp : ciPalindromeWith charToLowercase s
  · rw [if_pos hp, List.length_take]
    omega
  · rw [if_neg hp]

theorem length_rcs_le (s : List Char) :
    (remove_common_sequences s).length ≤ s.length :=
  foldl_removeAll_length_le COMMON_SEQUENCES s

/-- C10: each of the three reduction steps never increases the length of the
working character sequence, and consequently the stored reduced length is at
most the number of Unicode scalar values of the input. -/
theorem claim_C10_length_bound : ∀ (p : String) (s : List Char),
    (for_password p).length ≤ p.data.length ∧
    (remove_palindrome s).length ≤ s.length ∧
    (remove_common_sequences s).length ≤ s.length ∧
    (remove_repeating_characters s).length ≤ s.length := by
  intro p s
  refine ⟨?_, length_remove_palindrome_le s, length_rcs_le s, length_rrc_le s⟩
  have h1 : (for_password p).length = (reducedText p).length := classify_length _
  rw [h1]
  unfold reducedText
  calc (remove_repeating_characters (remove_common_sequences
          (remove_palindrome p.data))).length
      ≤ (remove_common_sequences (remove_palindrome p.data)).length := length_rrc_le _
    _ ≤ (remove_palindrome p.data).length := length_rcs_le _
    _ ≤ p.data.length := length_remove_palindrome_le _

/-! ## Properties of the classifier -/

theorem base_chain_eq (r s o l u d : Bool) (R S O L U D : Nat) :
    (let b0 : Nat := 0
     let b1 := if r then b0 + R else b0
     let b2 := if s then b1 + S else b1
     let b3 := if o then b2 + O else b2
     let b4 := if l then b3 + L else b3
     let b5 := if u then b4 + U else b4
     if d then b5 + D else b5) =
      (if r then R else 0) + (if s then S else 0) + (if o then O else 0) +
        (if l then L else 0) + (if u then U else 0) + (if d then D else 0) := by
  cases r <;> cases s <;> cases o <;> cases l <;> cases u <;> cases d <;> simp

theorem classify_base (s : List Char) :
    (classify s).base =
      (if (classify s).has_replace then REPLACE_CHARS.utf8ByteSize else 0) +
        (if (classify s).has_seperator then SEPARATOR_CHARS.utf8ByteSize else 0) +
        (if (classify s).has_other_special then OTHER_SPECIAL_CHARS.utf8ByteSize else 0) +
        (if (classify s).has_lower then LOWER_CHARS.utf8ByteSize else 0) +
        (if (classify s).has_upper then UPPER_CHARS.utf8ByteSize else 0) +
        (if (classify s).has_digit then DIGIT_CHARS.utf8ByteSize else 0) :=
  base_chain_eq _ _ _ _ _ _ _ _ _ _ _ _

theorem for_password_eq (p : String) : for_password p = classify (reducedText p) := rfl

theorem classify_has_replace (s : List Char) :
    (classify s).has_replace = (REPLACE_CHARS.data.any fun c => s.contains c) := rfl

theorem classify_has_seperator (s : List Char) :
    (classify s).has_seperator = (SEPARATOR_CHARS.data.any fun c => s.contains c) := rfl

theorem classify_has_other_special (s : List Char) :
    (classify s).has_other_special =
      (OTHER_SPECIAL_CHARS.data.any fun c => s.contains c) := rfl

theorem classify_has_lower (s : List Char) :
    (classify s).has_lower = (LOWER_CHARS.data.any fun c => s.contains c) := rfl

theorem classify_has_upper (s : List Char) :
    (classify s).has_upper = (UPPER_CHARS.data.any fun c => s.contains c) := rfl

theorem classify_has_digit (s : List Char) :
    (classify s).has_digit = (DIGIT_CHARS.data.any fun c => s.contains c) := rfl

theorem classify_flag_iff (cls : String) (s : List Char) :
    ((cls.data.any fun c => s.contains c) = true) ↔ ∃ c, c ∈ s ∧ c ∈ cls.data := by
  simp only [List.any_eq_true, List.contains_iff_exists_mem_beq, beq_iff_eq]
  constructor
  · rintro ⟨c, h1, a, h2, rfl⟩
    exact ⟨c, h2, h1⟩
  · rintro ⟨c, h1, h2⟩
    exact ⟨c, h2, c, h1, rfl⟩

theorem contains_mono {s t : List Char} (hsub : ∀ x, x ∈ s → x ∈ t) (cls : List Char) :
    ((cls.any fun c => s.contains c) = true) → (cls.any fun c => t.contains c) = true := by
  simp only [List.any_eq_true, List.contains_iff_exists_mem_beq, beq_iff_eq]
  rintro ⟨c, h1, a, h2, rfl⟩
  exact ⟨c, h1, c, hsub c h2, rfl⟩

theorem ite_nat_mono {b1 b2 : Bool} (K : Nat) (h : b1 = true → b2 = true) :
    (if b1 then K else 0) ≤ (if b2 then K else 0) := by
  cases b1 with
  | false => exact Nat.zero_le _
  | true => rw [h rfl]

set_option maxHeartbeats 1000000 in
/-- C3: each of the six flags of the record built by
`PasswordInfo::for_password` is true exactly when the fully reduced text
contains at least one character of the corresponding class table; `base` is
the sum of the byte sizes of the class tables whose flag is set (not counts
of occurrences); and `"letmein"` yields reduced length 7 and base 26 with
only the lower flag set. -/
theorem claim_C3_classifier : ∀ p : String,
    ((for_password p).has_replace = true ↔
      ∃ c, c ∈ reducedText p ∧ c ∈ REPLACE_CHARS.data) ∧
    ((for_password p).has_seperator = true ↔
      ∃ c, c ∈ reducedText p ∧ c ∈ SEPARATOR_CHARS.data) ∧
    ((for_password p).has_other_special = true ↔
      ∃ c, c ∈ reducedText p ∧ c ∈ OTHER_SPECIAL_CHARS.data) ∧
    ((for_password p).has_lower = true ↔
      ∃ c, c ∈ reducedText p ∧ c ∈ LOWER_CHARS.data) ∧
    ((for_password p).has_upper = true ↔
      ∃ c, c ∈ reducedText p ∧ c ∈ UPPER_CHARS.data) ∧
    ((for_password p).has_digit = true ↔
      ∃ c, c ∈ reducedText p ∧ c ∈ DIGIT_CHARS.data) ∧
    (for_password p).base =
      (if (for_password p).has_replace then REPLACE_CHARS.utf8ByteSize else 0) +
        (if (for_password p).has_seperator then SEPARATOR_CHARS.utf8ByteSize else 0) +
        (if (for_password p).has_other_special then OTHER_SPECIAL_CHARS.utf8ByteSize else 0) +
        (if (for_password p).has_lower then LOWER_CHARS.utf8ByteSize else 0) +
        (if (for_password p).has_upper then UPPER_CHARS.utf8ByteSize else 0) +
        (if (for_password p).has_digit then DIGIT_CHARS.utf8ByteSize else 0) ∧
    for_password "letmein" =
      { length := 7, base := 26, has_replace := false, has_seperator := false,
        has_other_special := false, has_lower := true, has_upper := false,
        has_digit := false } := by
  intro p
  rw [for_password_eq]
  refine ⟨?_, ?_, ?_, ?_, ?_, ?_, classify_base (reducedText p), ?_⟩
  · rw [classify_has_replace]
    exact classify_flag_iff REPLACE_CHARS (reducedText p)
  · rw [classify_has_seperator]
    exact classify_flag_iff SEPARATOR_CHARS (reducedText p)
  · rw [classify_has_other_special]
    exact classify_flag_iff OTHER_SPECIAL_CHARS (reducedText p)
  · rw [classify_has_lower]
    exact classify_flag_iff LOWER_CHARS (reducedText p)
  · rw [classify_has_upper]
    exact classify_flag_iff UPPER_CHARS (reducedText p)
  · rw [classify_has_digit]
    exact classify_flag_iff DIGIT_CHARS (reducedText p)
  · decide

/-- C7 counterexample: `'2'` is a digit, the reduced text of `"Million"`
(namely `"Milion"`) contains no digit, and yet appending `'2'` drops the
base from 52 to 0, because `"Million2"` is itself a known sequence and is
removed whole; so adding a character of an absent class can strictly
decrease `base`. -/
theorem claim_C7_counterexample :
    "Million2".data = "Million".data ++ ['2'] ∧
    ('2' ∈ DIGIT_CHARS.data) ∧
    (∀ c ∈ reducedText "Million", c ∉ DIGIT_CHARS.data) ∧
    (for_password "Million").base = 52 ∧
    (for_password "Million2").base = 0 ∧
    (for_password "Million2").base < (for_password "Million").base := by
  refine ⟨by decide, by decide, by decide, by decide, by decide, by decide⟩

/-- C7 (amended): at the classifier level the property holds — appending
any character to the classifier's input can only increase or hold `base`
constant, because every flag is monotone in the text; through the full
pipeline the property fails (see the counterexample), since the reductions
may delete characters of other classes. -/
theorem claim_C7_base_monotone : ∀ (s : List Char) (c : Char),
    (classify s).base ≤ (classify (s ++ [c])).base := by
  intro s c
  have hsub : ∀ x, x ∈ s → x ∈ s ++ [c] := fun x hx => List.mem_append_left _ hx
  rw [classify_base, classify_base]
  have m1 : (classify s).has_replace = true → (classify (s ++ [c])).has_replace = true := by
    rw [classify_has_replace, classify_has_replace]
    exact contains_mono hsub REPLACE_CHARS.data
  have m2 : (classify s).has_seperator = true → (classify (s ++ [c])).has_seperator = true := by
    rw [classify_has_seperator, classify_has_seperator]
    exact contains_mono hsub SEPARATOR_CHARS.data
  have m3 : (classify s).has_other_special = true →
      (classify (s ++ [c])).has_other_special = true := by
    rw [classify_has_other_special, classify_has_other_special]
    exact contains_mono hsub OTHER_SPECIAL_CHARS.data
  have m4 : (classify s).has_lower = true → (classify (s ++ [c])).has_lower = true := by
    rw [classify_has_lower, classify_has_lower]
    exact contains_mono hsub LOWER_CHARS.data
  have m5 : (classify s).has_upper = true → (classify (s ++ [c])).has_upper = true := by
    rw [classify_has_upper, classify_has_upper]
    exact contains_mono hsub UPPER_CHARS.data
  have m6 : (classify s).has_digit = true → (classify (s ++ [c])).has_digit = true := by
    rw [classify_has_digit, classify_has_digit]
    exact contains_mono hsub DIGIT_CHARS.data
  exact Nat.add_le_add (Nat.add_le_add (Nat.add_le_add (Nat.add_le_add (Nat.add_le_add
    (ite_nat_mono _ m1) (ite_nat_mono _ m2)) (ite_nat_mono _ m3)) (ite_nat_mono _ m4))
    (ite_nat_mono _ m5)) (ite_nat_mono _ m6)

/-! ## Properties of the entropy computation -/

theorem F64_add_fin_fin (x y : ℝ) : F64.add (.fin x) (.fin y) = .fin (x + y) := rfl

theorem F64_add_fin_negInf (x : ℝ) : F64.add (.fin x) .negInf = .negInf := rfl

theorem F64_add_negInf_negInf : F64.add .negInf .negInf = .negInf := rfl

theorem foldl_add_replicate_fin :
    ∀ (n : Nat) (x L : ℝ),
      (List.replicate n (F64.fin L)).foldl F64.add (.fin x) = .fin (x + n * L) := by
  intro n
  induction n with
  | zero => intro x L; simp
  | succ m ih =>
      intro x L
      rw [List.replicate_succ, List.foldl_cons, F64_add_fin_fin, ih]
      congr 1
      push_cast
      ring

theorem foldl_add_replicate_negInf :
    ∀ n : Nat, (List.replicate n F64.negInf).foldl F64.add .negInf = .negInf := by
  intro n
  induction n with
  | zero => rfl
  | succ m ih =>
      rw [List.replicate_succ, List.foldl_cons, F64_add_negInf_negInf]
      exact ih

theorem f64_log_pos {b : ℝ} (hb : 0 < b) :
    f64_log b 2 = .fin (Real.log b / Real.log 2) := by
  unfold f64_log
  rw [if_neg (by linarith), if_neg hb.ne']

theorem log_power_eq_fin {b : ℝ} (hb : 0 < b) (n : Nat) :
    log_power b n 2 = .fin (n * (Real.log b / Real.log 2)) := by
  unfold log_power
  rw [f64_log_pos hb, foldl_add_replicate_fin]
  norm_num

theorem log_power_zero_pow (b : ℝ) : log_power b 0 2 = .fin 0 := rfl

theorem log_power_zero_base {n : Nat} (hn : 0 < n) : log_power 0 n 2 = .negInf := by
  have h1 : f64_log 0 2 = .negInf := by
    unfold f64_log
    rw [if_neg (by norm_num), if_pos rfl]
  obtain ⟨m, rfl⟩ : ∃ m, n = m + 1 := ⟨n - 1, by omega⟩
  unfold log_power
  rw [h1, List.replicate_succ, List.foldl_cons, F64_add_fin_negInf]
  exact foldl_add_replicate_negInf m

/-- C2: `get_entropy` returns the sum of `length` copies of `log₂(base)`
(equal, in the idealised finite arithmetic, to `length × log₂(base)`); a
zero length gives 0 even when the base is 0; a zero base with positive
length gives `−∞` (not `nan`, not an error); and the result is never `nan`
and never `+∞`. -/
theorem claim_C2_entropy : ∀ info : PasswordInfo,
    get_entropy info =
      (List.replicate info.length (f64_log (info.base : ℝ) 2)).foldl F64.add (.fin 0) ∧
    (0 < info.base →
      get_entropy info = .fin (info.length * Real.logb 2 (info.base : ℝ))) ∧
    (info.length = 0 → get_entropy info = .fin 0) ∧
    (info.base = 0 → 0 < info.length → get_entropy info = .negInf) ∧
    get_entropy info ≠ F64.nan ∧
    get_entropy info ≠ F64.posInf := by
  intro info
  have hdef : get_entropy info = log_power (info.base : ℝ) info.length 2 := rfl
  have hfin : 0 < info.base →
      get_entropy info = .fin (info.length * Real.logb 2 (info.base : ℝ)) := by
    intro hb
    have hb' : (0 : ℝ) < (info.base : ℝ) := by exact_mod_cast hb
    rw [hdef, log_power_eq_fin hb']
    simp [Real.logb]
  have hshape : (∃ x, get_entropy info = F64.fin x) ∨ get_entropy info = F64.negInf := by
    rcases Nat.eq_zero_or_pos info.base with hb | hb
    · rcases Nat.eq_zero_or_pos info.length with hn | hn
      · left
        exact ⟨0, by rw [hdef, hn]; exact log_power_zero_pow _⟩
      · right
        rw [hdef, hb, Nat.cast_zero]
        exact log_power_zero_base hn
    · left
      exact ⟨_, hfin hb⟩
  refine ⟨rfl, hfin, ?_, ?_, ?_, ?_⟩
  · intro hn
    rw [hdef, hn]
    exact log_power_zero_pow _
  · intro hb hn
    rw [hdef, hb, Nat.cast_zero]
    exact log_power_zero_base hn
  · rcases hshape with ⟨x, hx⟩ | hx <;> rw [hx] <;> simp
  · rcases hshape with ⟨x, hx⟩ | hx <;> rw [hx] <;> simp

/-! ## Determinism and purity -/

/-- C9: the construction and the entropy accessor are deterministic pure
functions of the input string — equal inputs give records equal in every
field and identical entropy values.  (In this embedding the absence of
mutation of the caller's input is inherent: the source takes `&str`,
forbids `unsafe`, and works on its own copy.) -/
theorem claim_C9_deterministic : ∀ p q : String, p = q →
    for_password p = for_password q ∧
    get_entropy (for_password p) = get_entropy (for_password q) := by
  intro p q h
  subst h
  exact ⟨rfl, rfl⟩

/-- Witness for C9 at the concrete input `"letmein"`. -/
theorem claim_C9_witness :
    for_password "letmein" = for_password "letmein" ∧
    get_entropy (for_password "letmein") = get_entropy (for_password "letmein") :=
  claim_C9_deterministic "letmein" "letmein" rfl

end PwEntropy
